import Mathlib

/-!
Shallow embedding of `src/gezoo/whispers_algorithm.py` (repository rachgupta/Gezoo).

The module under `src/` implements the chinese-whispers clustering core:
`create_graph` (node construction + threshold-gated neighbor lists) and
`whispers` (weighted adjacency construction + randomized label propagation).

Modelling conventions:
* Python/numpy floats are modelled as rationals `ℚ`; the weighted edge value
  `1 / distance**2 + 1`, which numpy evaluates to `inf` at distance `0`,
  is modelled in `WithTop ℚ` with `⊤` for the infinite value.
* The two sources of randomness (`random.choice(graph)` and
  `random.choice(max_dupl_indices)`) are modelled by an injected oracle
  `ℕ → ℕ × ℕ`: round `k` receives a draw index (taken modulo the collection
  length, every element reachable) and a tie-break index (taken modulo the
  tied-list length).  Uniformity of the distribution itself is not modelled;
  theorems quantify over, or exhibit, oracle values.
* Fallible operations (Python `IndexError`, in particular `random.choice` on
  an empty sequence) are modelled with `Except String`.
* Node mutation (`node.label = ...`) is modelled by explicit state passing on
  the node list; `whispers` returns the final list together with the number of
  loop iterations that were executed.
-/

namespace Gezoo

/-- Edge-weight domain: nonnegative reals extended with the infinite value that
numpy produces for `1 / 0.0`; modelled as `WithTop ℚ`. -/
abbrev W := WithTop ℚ

/-- Adjacency matrix, modelled as a total function from index pairs to weights
(`np.zeros((len(graph), len(graph)))` initialises every entry to `0`). -/
abbrev AdjMatrix := ℕ × ℕ → W

/-- A single in-place write `m[p] = w` of the numpy array. -/
def mupdate (m : AdjMatrix) (p : ℕ × ℕ) (w : W) : AdjMatrix :=
  fun q => if q = p then w else m q

/-- Boolean order test on weights (numpy comparison of float entries,
with `inf` greater than every finite value). -/
def wle : W → W → Bool
  | _, none => true
  | none, some _ => false
  | some a, some b => decide (a ≤ b)

/-- Binary maximum on weights, used to model `np.amax`. -/
def wmax (a b : W) : W := if wle a b then b else a

/-- Modelled from the spec: `node.py` is not under `src/`.  Per spec §3 a node
carries `id` (position in the collection), `neighbors` (ids), `descriptor`
(feature vector, empty when unclassifiable), `label` (mutable, initialized to
`id`) and the permanent `unclassified` flag.  The opaque `image`/`image_path`
payload is never inspected by the core and is omitted. -/
structure Node where
  id : ℕ
  neighbors : List ℕ
  descriptor : List ℚ
  label : ℕ
  unclassified : Bool
deriving DecidableEq

/-- Default node used only to total `List.getD` lookups in decidable
well-formedness predicates. -/
def dNode : Node := ⟨0, [], [], 0, true⟩

/-- A node with its mutable label blanked, for stating that propagation
changes nothing but labels. -/
def strip (n : Node) : Node := ⟨n.id, n.neighbors, n.descriptor, 0, n.unclassified⟩

/-- Dot product of two descriptor vectors. -/
def dotp : List ℚ → List ℚ → ℚ
  | a :: as, b :: bs => a * b + dotp as bs
  | _, _ => 0

/-- Modelled from the spec: `cosine_distance` lives in `determine_matches.py`,
which is not under `src/`.  Per spec §4.1 it is `1 − cosine_similarity`
(symmetric, `0` for identical-direction vectors).  Real vector norms are
irrational in general, so this model takes descriptors as unit vectors (the
reference use case: unit-normalized 512-d embeddings), where cosine
similarity is the dot product.  The theorems below are stated for an
arbitrary distance function and only witnesses instantiate this one. -/
def cosine_distance (a b : List ℚ) : ℚ := 1 - dotp a b

/-- Dot products are symmetric, hence so is the modelled cosine distance. -/
theorem dotp_comm : ∀ a b : List ℚ, dotp a b = dotp b a := by
  intro a
  induction a with
  | nil => intro b; cases b <;> rfl
  | cons x xs ih =>
    intro b
    cases b with
    | nil => rfl
    | cons y ys =>
      show x * y + dotp xs ys = y * x + dotp ys xs
      rw [mul_comm, ih ys]

theorem cosine_distance_symm (a b : List ℚ) : cosine_distance a b = cosine_distance b a := by
  unfold cosine_distance
  rw [dotp_comm]

/-- Discrete stand-in distance used by concrete witnesses: `0` for equal
descriptors and `1` otherwise.  Like the cosine distance it is symmetric and
vanishes on identical descriptors, but it avoids rational arithmetic, which
the kernel cannot reduce, so concrete runs evaluate by `decide`/`rfl`. -/
def dist01 (a b : List ℚ) : ℚ := if a = b then 0 else 1

/-- The edge weight written into the adjacency matrix:
`1 / (distance ** 2) + 1 if weighted_edges else 1` (whispers_algorithm.py
lines 112-117), with numpy's `1 / 0.0 = inf` modelled as `⊤`. -/
def edge_weight (weighted : Bool) (d : ℚ) : W :=
  if weighted then (if d = 0 then ⊤ else ((1 / d ^ 2 + 1 : ℚ) : W)) else 1

/-! ## The propagation loop of `whispers` (lines 98-176) -/

/-- Lines 103-117: for each classified node and each of its neighbors, compute
the distance once and write the derived edge weight into both `(node.id, nb)`
and `(nb, node.id)`.  A neighbor id outside the collection is a stated
precondition violation (spec §7); the model skips such a write. -/
def populate_node (dist : List ℚ → List ℚ → ℚ) (weighted : Bool) (graph : List Node)
    (m : AdjMatrix) (node : Node) : AdjMatrix :=
  if node.unclassified then m
  else
    node.neighbors.foldl (fun m2 nb =>
      match graph.get? nb with
      | none => m2
      | some other =>
        let d := dist node.descriptor other.descriptor
        let w := edge_weight weighted d
        mupdate (mupdate m2 (node.id, nb) w) (nb, node.id) w) m

/-- The full adjacency-construction pass (lines 99-117), starting from the
all-zero matrix. -/
def populate (dist : List ℚ → List ℚ → ℚ) (weighted : Bool) (graph : List Node) : AdjMatrix :=
  graph.foldl (populate_node dist weighted graph) (fun _ => 0)

/-- Lines 134-140: `frequencies`, the list of pairs
`(neighbor_index, adjacency_matrix[node.id, neighbor])` built by `enumerate`,
with `i` the running enumeration counter. -/
def freqs_aux (adj : AdjMatrix) (nodeId : ℕ) : ℕ → List ℕ → List (ℕ × W)
  | _, [] => []
  | i, nb :: rest => (i, adj (nodeId, nb)) :: freqs_aux adj nodeId (i + 1) rest

/-- The `frequencies` list of a drawn node. -/
def freqs (adj : AdjMatrix) (node : Node) : List (ℕ × W) :=
  freqs_aux adj node.id 0 node.neighbors

/-- Line 143: `np.amax(frequencies[:, 1])`.  `np.amax` of an empty array is an
error; the `[]` case is unreachable in `whispers` (guarded by
`len(node.neighbors) != 0`) and returns `0`. -/
def max_freq : List (ℕ × W) → W
  | [] => 0
  | p :: rest => rest.foldl (fun acc q => wmax acc q.2) p.2

/-- Lines 144-151: `max_dupl_indices`, the neighbor indices whose frequency
equals the maximum. -/
def tied_indices (l : List (ℕ × W)) : List ℕ :=
  (l.filter (fun p => decide (p.2 = max_freq l))).map Prod.fst

/-- Lines 153-159: `random.choice(max_dupl_indices)` when there are duplicates,
else `max_dupl_indices[0]` (an `IndexError` on an empty list). -/
def pick_index (tie : ℕ) (tied : List ℕ) : Except String ℕ :=
  if h : 1 < tied.length then
    .ok (tied.get ⟨tie % tied.length, Nat.mod_lt tie (by omega)⟩)
  else
    match tied with
    | [] => .error "IndexError: list index out of range"
    | k :: _ => .ok k

/-- One iteration of the `for i in range(max_iterations)` loop
(lines 125-174): draw a node (`random.choice(graph)`, an `IndexError` on an
empty collection), skip it if unclassified or neighbor-less, otherwise update
its label to the chosen maximal neighbor's current label and do the
convergence bookkeeping.  Returns the new node list, the new
`num_labels_count` and `past_labels`, and whether `break` was executed. -/
def whispers_round (adj : AdjMatrix) (graph : List Node) (c : ℕ × ℕ) (count past : ℤ) :
    Except String (List Node × ℤ × ℤ × Bool) :=
  match graph.get? (c.1 % graph.length) with
  | none => .error "IndexError: Cannot choose from an empty sequence"
  | some node =>
    if node.unclassified then .ok (graph, count, past, false)
    else if node.neighbors = [] then .ok (graph, count, past, false)
    else
      match pick_index c.2 (tied_indices (freqs adj node)) with
      | .error e => .error e
      | .ok k =>
        match node.neighbors.get? k with
        | none => .error "IndexError: tuple index out of range"
        | some nbId =>
          match graph.get? nbId with
          | none => .error "IndexError: list index out of range"
          | some nbNode =>
            let newLabel := nbNode.label
            let count2 := if newLabel ≠ node.label then count - 1 else count
            let graph2 := graph.set (c.1 % graph.length) { node with label := newLabel }
            if count2 = past then .ok (graph2, count2, past, true)
            else .ok (graph2, count2, count2, false)

/-- The iteration loop, with `fuel` the remaining iterations and `rounds` the
number of iterations already executed.  Returns the final node list and the
total number of loop iterations that ran. -/
def whispers_loop (adj : AdjMatrix) (oracle : ℕ → ℕ × ℕ) :
    ℕ → ℕ → List Node → ℤ → ℤ → Except String (List Node × ℕ)
  | 0, rounds, graph, _, _ => .ok (graph, rounds)
  | fuel + 1, rounds, graph, count, past =>
    match whispers_round adj graph (oracle rounds) count past with
    | .error e => .error e
    | .ok (g2, c2, p2, broke) =>
      if broke then .ok (g2, rounds + 1)
      else whispers_loop adj oracle fuel (rounds + 1) g2 c2 p2

/-- `whispers(graph, max_iterations, weighted_edges)` (lines 77-176): build
the adjacency matrix, then run the randomized update loop starting from
`num_labels_count = past_labels = len(graph)` (lines 121-122).  The oracle
supplies the random draws.  Returns the adjacency matrix together with the
final node list and the number of executed iterations. -/
def whispers (dist : List ℚ → List ℚ → ℚ) (graph : List Node) (max_iterations : ℕ)
    (weighted_edges : Bool) (oracle : ℕ → ℕ × ℕ) :
    Except String (AdjMatrix × List Node × ℕ) :=
  match whispers_loop (populate dist weighted_edges graph) oracle max_iterations 0 graph
      (graph.length : ℤ) (graph.length : ℤ) with
  | .error e => .error e
  | .ok (g, r) => .ok (populate dist weighted_edges graph, g, r)

/-! ## `create_graph` (lines 15-74) -/

/-- Lines 37-52: node construction.  The folder import and the MTCNN
fingerprint computation are external collaborators (spec §6); each item of
`items` stands for the list of fingerprints the extractor returned for one
image.  Exactly one fingerprint yields a classified node, anything else an
unclassified one; `n` is the running `node_num` and, per the spec-modelled
`Node`, also the initial label. -/
def initial_nodes_aux : ℕ → List (List (List ℚ)) → List Node
  | _, [] => []
  | n, fps :: rest =>
    match fps with
    | [fp] => Node.mk n [] fp n false :: initial_nodes_aux (n + 1) rest
    | _ => Node.mk n [] [] n true :: initial_nodes_aux (n + 1) rest

/-- The node-construction pass started at `node_num = 0`. -/
def initial_nodes (items : List (List (List ℚ))) : List Node :=
  initial_nodes_aux 0 items

/-- Lines 58-70: the inner neighbor loop for one classified node `node1` at
position `p1` with descriptor `d1`: walk every `node2` (position `p2`), skip
unclassified ones, and record `node2.id` when `node1 is not node2` (distinct
positions: every node is a fresh object) and the distance is below the
threshold. -/
def neighbors_for_aux (dist : List ℚ → List ℚ → ℚ) (d1 : List ℚ) (p1 : ℕ) (threshold : ℚ) :
    ℕ → List Node → List ℕ
  | _, [] => []
  | p2, node2 :: rest =>
    if node2.unclassified then neighbors_for_aux dist d1 p1 threshold (p2 + 1) rest
    else if p2 ≠ p1 ∧ dist d1 node2.descriptor < threshold then
      node2.id :: neighbors_for_aux dist d1 p1 threshold (p2 + 1) rest
    else neighbors_for_aux dist d1 p1 threshold (p2 + 1) rest

/-- Lines 54-72: the outer loop assigning `node1.neighbors`; unclassified
nodes are skipped and keep their empty list. -/
def fill_neighbors_aux (dist : List ℚ → List ℚ → ℚ) (g : List Node) (threshold : ℚ) :
    ℕ → List Node → List Node
  | _, [] => []
  | p1, node1 :: rest =>
    (if node1.unclassified then node1
     else { node1 with neighbors := neighbors_for_aux dist node1.descriptor p1 threshold 0 g }) ::
    fill_neighbors_aux dist g threshold (p1 + 1) rest

/-- `create_graph(folder_path, threshold)` (lines 15-74), with the external
image import and fingerprint extraction abstracted into `items` and the
distance function injected (the source imports `cosine_distance` from a
module outside `src/`). -/
def create_graph (dist : List ℚ → List ℚ → ℚ) (items : List (List (List ℚ)))
    (threshold : ℚ) : List Node :=
  let g := initial_nodes items
  fill_neighbors_aux dist g threshold 0 g

/-! ## Decidable well-formedness and convergence predicates -/

/-- Every classified node's neighbor ids are in range and point at classified
nodes (spec §3: a well-formed collection from GraphBuilder). -/
def NbOk (g : List Node) : Prop :=
  ∀ n ∈ g, n.unclassified = false →
    ∀ nb ∈ n.neighbors, nb < g.length ∧ (g.getD nb dNode).unclassified = false

instance (g : List Node) : Decidable (NbOk g) := by
  unfold NbOk; infer_instance

/-- Every classified node of `g` carries the id of some classified node of
`g0` as its label. -/
def LabelsOk (g0 g : List Node) : Prop :=
  ∀ n ∈ g, n.unclassified = false →
    ∃ m ∈ g0, m.unclassified = false ∧ n.label = m.id

instance (g0 g : List Node) : Decidable (LabelsOk g0 g) := by
  unfold LabelsOk; infer_instance

/-- Whether a draw of the node at position `p` can change its label: `true`
when the node is unclassified, neighbor-less, or every tied maximal neighbor
already carries the node's label (so every tie-break is a no-op). -/
def node_converged (adj : AdjMatrix) (g : List Node) (p : ℕ) : Bool :=
  match g.get? p with
  | none => true
  | some node =>
    if node.unclassified then true
    else if node.neighbors = [] then true
    else
      (tied_indices (freqs adj node)).all (fun k =>
        match node.neighbors.get? k with
        | none => false
        | some nbId =>
          match g.get? nbId with
          | none => false
          | some nb => nb.label == node.label)

/-- A collection on which no draw can change any label. -/
def converged (adj : AdjMatrix) (g : List Node) : Bool :=
  (List.range g.length).all (node_converged adj g)

/-! ## Order lemmas for the weight domain -/

theorem wle_iff (a b : W) : wle a b = true ↔ a ≤ b := by
  cases a <;> cases b <;>
    simp [wle, WithTop.none_eq_top, WithTop.some_eq_coe, WithTop.coe_le_coe]

theorem le_wmax_left (a b : W) : a ≤ wmax a b := by
  unfold wmax
  by_cases h : wle a b = true
  · rw [if_pos h]; exact (wle_iff a b).mp h
  · rw [if_neg h]

theorem le_wmax_right (a b : W) : b ≤ wmax a b := by
  unfold wmax
  by_cases h : wle a b = true
  · rw [if_pos h]
  · rw [if_neg h]
    exact le_of_not_le (fun hab => h ((wle_iff a b).mpr hab))

theorem wmax_cases (a b : W) : wmax a b = a ∨ wmax a b = b := by
  unfold wmax; by_cases h : wle a b = true
  · rw [if_pos h]; exact Or.inr rfl
  · rw [if_neg h]; exact Or.inl rfl

theorem le_fold_wmax (l : List (ℕ × W)) (a : W) :
    a ≤ l.foldl (fun acc q => wmax acc q.2) a := by
  induction l generalizing a with
  | nil => simp
  | cons p t ih =>
    rw [List.foldl_cons]
    exact le_trans (le_wmax_left a p.2) (ih (wmax a p.2))

theorem mem_le_fold_wmax (l : List (ℕ × W)) (a : W) (p : ℕ × W) (hp : p ∈ l) :
    p.2 ≤ l.foldl (fun acc q => wmax acc q.2) a := by
  induction l generalizing a with
  | nil => cases hp
  | cons q t ih =>
    rw [List.foldl_cons]
    rcases List.mem_cons.mp hp with h | h
    · subst h
      exact le_trans (le_wmax_right a p.2) (le_fold_wmax t (wmax a p.2))
    · exact ih (wmax a q.2) h

theorem fold_wmax_attained (l : List (ℕ × W)) (a : W) :
    l.foldl (fun acc q => wmax acc q.2) a = a ∨
      ∃ p ∈ l, l.foldl (fun acc q => wmax acc q.2) a = p.2 := by
  induction l generalizing a with
  | nil => exact Or.inl rfl
  | cons q t ih =>
    rw [List.foldl_cons]
    rcases ih (wmax a q.2) with h | ⟨p, hp, heq⟩
    · rcases wmax_cases a q.2 with h2 | h2
      · exact Or.inl (h.trans h2)
      · exact Or.inr ⟨q, List.mem_cons_self q t, h.trans h2⟩
    · exact Or.inr ⟨p, List.mem_cons_of_mem q hp, heq⟩

theorem le_max_freq (l : List (ℕ × W)) (p : ℕ × W) (hp : p ∈ l) : p.2 ≤ max_freq l := by
  cases l with
  | nil => cases hp
  | cons q t =>
    unfold max_freq
    rcases List.mem_cons.mp hp with h | h
    · subst h; exact le_fold_wmax t p.2
    · exact mem_le_fold_wmax t q.2 p h

theorem max_freq_attained (l : List (ℕ × W)) (hl : l ≠ []) :
    ∃ p ∈ l, p.2 = max_freq l := by
  cases l with
  | nil => exact absurd rfl hl
  | cons q t =>
    unfold max_freq
    rcases fold_wmax_attained t q.2 with h | ⟨p, hp, heq⟩
    · exact ⟨q, List.mem_cons_self q t, h.symm⟩
    · exact ⟨p, List.mem_cons_of_mem q hp, heq.symm⟩

/-! ## Characterization of `frequencies`, `max_dupl_indices` and the pick -/

theorem freqs_aux_length (adj : AdjMatrix) (nid : ℕ) :
    ∀ (l : List ℕ) (i : ℕ), (freqs_aux adj nid i l).length = l.length := by
  intro l
  induction l with
  | nil => intro i; rfl
  | cons nb rest ih => intro i; simp [freqs_aux, ih]

theorem freqs_aux_get? (adj : AdjMatrix) (nid : ℕ) :
    ∀ (l : List ℕ) (i k : ℕ),
      (freqs_aux adj nid i l).get? k = (l.get? k).map (fun nb => (i + k, adj (nid, nb))) := by
  intro l
  induction l with
  | nil => intro i k; simp [freqs_aux]
  | cons nb rest ih =>
    intro i k
    cases k with
    | zero => simp [freqs_aux]
    | succ k =>
      have h : i + 1 + k = i + (k + 1) := by omega
      simp only [freqs_aux, List.get?_cons_succ, ih (i + 1) k]
      simp only [h]

theorem freqs_length (adj : AdjMatrix) (node : Node) :
    (freqs adj node).length = node.neighbors.length :=
  freqs_aux_length adj node.id node.neighbors 0

theorem freqs_get? (adj : AdjMatrix) (node : Node) (k : ℕ) :
    (freqs adj node).get? k = (node.neighbors.get? k).map (fun nb => (k, adj (node.id, nb))) := by
  have h := freqs_aux_get? adj node.id node.neighbors 0 k
  simpa [freqs] using h

theorem mem_freqs (adj : AdjMatrix) (node : Node) (p : ℕ × W) :
    p ∈ freqs adj node ↔
      ∃ nb, node.neighbors.get? p.1 = some nb ∧ p.2 = adj (node.id, nb) := by
  rw [List.mem_iff_get?]
  constructor
  · rintro ⟨n, hn⟩
    rw [freqs_get?] at hn
    rcases Option.map_eq_some'.mp hn with ⟨nb, hnb, hp⟩
    refine ⟨nb, ?_, ?_⟩
    · rw [← hp]; exact hnb
    · rw [← hp]
  · rintro ⟨nb, hnb, hval⟩
    refine ⟨p.1, ?_⟩
    rw [freqs_get?, hnb]
    simp only [Option.map_some']
    cases p with
    | mk a b => simp only at hval ⊢; rw [hval]

theorem mem_tied_freqs (adj : AdjMatrix) (node : Node) (k : ℕ) :
    k ∈ tied_indices (freqs adj node) ↔
      ∃ nb, node.neighbors.get? k = some nb ∧
        adj (node.id, nb) = max_freq (freqs adj node) := by
  unfold tied_indices
  rw [List.mem_map]
  constructor
  · rintro ⟨p, hp, hfst⟩
    rcases List.mem_filter.mp hp with ⟨hmem, hdec⟩
    have hval : p.2 = max_freq (freqs adj node) := of_decide_eq_true hdec
    rcases (mem_freqs adj node p).mp hmem with ⟨nb, hnb, hadj⟩
    exact ⟨nb, hfst ▸ hnb, by rw [← hadj, hval]⟩
  · rintro ⟨nb, hnb, hmax⟩
    refine ⟨(k, adj (node.id, nb)), List.mem_filter.mpr ⟨?_, ?_⟩, rfl⟩
    · exact (mem_freqs adj node (k, adj (node.id, nb))).mpr ⟨nb, hnb, rfl⟩
    · exact decide_eq_true hmax

theorem tied_nonempty (adj : AdjMatrix) (node : Node) (h : node.neighbors ≠ []) :
    tied_indices (freqs adj node) ≠ [] := by
  have hf : freqs adj node ≠ [] := by
    intro hc
    have := freqs_length adj node
    rw [hc] at this
    exact h (List.eq_nil_of_length_eq_zero this.symm)
  rcases max_freq_attained (freqs adj node) hf with ⟨p, hp, hval⟩
  have : p.1 ∈ tied_indices (freqs adj node) := by
    unfold tied_indices
    exact List.mem_map.mpr ⟨p, List.mem_filter.mpr ⟨hp, decide_eq_true hval⟩, rfl⟩
  exact List.ne_nil_of_mem this

theorem pick_index_mem (t : ℕ) (tied : List ℕ) (k : ℕ)
    (h : pick_index t tied = .ok k) : k ∈ tied := by
  unfold pick_index at h
  split at h
  · rw [Except.ok.injEq] at h
    rw [← h]
    exact List.get_mem _ _ _
  · cases tied with
    | nil => cases h
    | cons a rest =>
      rw [Except.ok.injEq] at h
      rw [← h]
      exact List.mem_cons_self a rest

theorem pick_index_surj (tied : List ℕ) (k : ℕ) (h : k ∈ tied) :
    ∃ t, pick_index t tied = .ok k := by
  by_cases hl : 1 < tied.length
  · rcases List.mem_iff_get.mp h with ⟨⟨i, hi⟩, hget⟩
    refine ⟨i, ?_⟩
    unfold pick_index
    rw [dif_pos hl]
    have hmod : i % tied.length = i := Nat.mod_eq_of_lt hi
    rw [Except.ok.injEq]
    rw [show (⟨i % tied.length, Nat.mod_lt i (by omega)⟩ : Fin tied.length) = ⟨i, hi⟩ from
      Fin.ext hmod]
    exact hget
  · refine ⟨0, ?_⟩
    unfold pick_index
    rw [dif_neg hl]
    cases tied with
    | nil => cases h
    | cons a rest =>
      have : rest = [] := by
        cases rest with
        | nil => rfl
        | cons b r2 => exact absurd (by simp only [List.length_cons]; omega) hl
      subst this
      rcases List.mem_singleton.mp h with rfl
      rfl

theorem pick_index_singleton (t k : ℕ) : pick_index t [k] = .ok k := by
  unfold pick_index
  rw [dif_neg (by simp)]

theorem pick_index_ok (t : ℕ) (tied : List ℕ) (h : tied ≠ []) :
    ∃ k, pick_index t tied = .ok k := by
  unfold pick_index
  split
  · exact ⟨_, rfl⟩
  · cases tied with
    | nil => exact absurd rfl h
    | cons a rest => exact ⟨a, rfl⟩

/-! ## Adjacency-construction lemmas -/

theorem mupdate_same (m : AdjMatrix) (p : ℕ × ℕ) (w : W) : mupdate m p w p = w := by
  simp [mupdate]

theorem mupdate_other (m : AdjMatrix) (p : ℕ × ℕ) (w : W) (q : ℕ × ℕ) (h : q ≠ p) :
    mupdate m p w q = m q := by
  simp [mupdate, h]

theorem foldl_pres {α β : Type} {P : β → Prop} (f : β → α → β) :
    ∀ (l : List α) (b : β), (∀ b2 a, a ∈ l → P b2 → P (f b2 a)) → P b → P (l.foldl f b) := by
  intro l
  induction l with
  | nil => intro b _ hb; exact hb
  | cons a t ih =>
    intro b hstep hb
    rw [List.foldl_cons]
    exact ih (f b a) (fun b2 x hx => hstep b2 x (List.mem_cons_of_mem a hx))
      (hstep b a (List.mem_cons_self a t) hb)

theorem foldl_attain {α β : Type} {P : β → Prop} (f : β → α → β) (l : List α) (a : α)
    (ha : a ∈ l) (hest : ∀ b, P (f b a))
    (hpres : ∀ b x, x ∈ l → P b → P (f b x)) :
    ∀ b, P (l.foldl f b) := by
  rcases List.append_of_mem ha with ⟨s, t, rfl⟩
  intro b
  rw [List.foldl_append, List.foldl_cons]
  exact foldl_pres f t _ (fun b2 x hx => hpres b2 x (by simp [hx])) (hest _)

/-- Symmetry of a matrix, and its preservation by the paired writes of
lines 112-117. -/
def SymM (m : AdjMatrix) : Prop := ∀ i j, m (i, j) = m (j, i)

theorem symM_double_update (m : AdjMatrix) (i j : ℕ) (w : W) (h : SymM m) :
    SymM (mupdate (mupdate m (i, j) w) (j, i) w) := by
  intro a b
  simp only [mupdate, Prod.mk.injEq]
  split_ifs <;> first | rfl | exact h a b | tauto

theorem populate_node_symm (dist : List ℚ → List ℚ → ℚ) (weighted : Bool)
    (graph : List Node) (m : AdjMatrix) (node : Node) (h : SymM m) :
    SymM (populate_node dist weighted graph m node) := by
  unfold populate_node
  split
  · exact h
  · refine foldl_pres (P := SymM) _ node.neighbors m (fun m2 nb _ hm2 => ?_) h
    cases hg : graph.get? nb with
    | none => simpa [hg] using hm2
    | some other => simpa [hg] using symM_double_update m2 node.id nb _ hm2

theorem populate_symm (dist : List ℚ → List ℚ → ℚ) (weighted : Bool) (graph : List Node) :
    SymM (populate dist weighted graph) := by
  unfold populate
  exact foldl_pres (P := SymM) _ graph _
    (fun m node _ hm => populate_node_symm dist weighted graph m node hm)
    (fun i j => rfl)

theorem one_le_edge_weight (weighted : Bool) (d : ℚ) : 1 ≤ edge_weight weighted d := by
  unfold edge_weight
  split
  · split
    · exact le_top
    · rw [show (1 : W) = ((1 : ℚ) : W) from rfl, WithTop.coe_le_coe]
      have hd : (0 : ℚ) ≤ 1 / d ^ 2 := by positivity
      linarith
  · exact le_refl 1

theorem one_le_mupdate_cell (m : AdjMatrix) (q : ℕ × ℕ) (w : W) (cell : ℕ × ℕ)
    (hm : 1 ≤ m cell) (hw : 1 ≤ w) : 1 ≤ mupdate m q w cell := by
  unfold mupdate
  split
  · exact hw
  · exact hm

theorem populate_node_cell_pres (dist : List ℚ → List ℚ → ℚ) (weighted : Bool)
    (graph : List Node) (node : Node) (m : AdjMatrix) (cell : ℕ × ℕ)
    (hm : 1 ≤ m cell) : 1 ≤ populate_node dist weighted graph m node cell := by
  unfold populate_node
  split
  · exact hm
  · refine foldl_pres (P := fun m2 => 1 ≤ m2 cell) _ node.neighbors m
      (fun m2 nb _ hm2 => ?_) hm
    cases hg : graph.get? nb with
    | none => simpa [hg] using hm2
    | some other =>
      simp only [hg]
      exact one_le_mupdate_cell _ _ _ _
        (one_le_mupdate_cell _ _ _ _ hm2 (one_le_edge_weight _ _)) (one_le_edge_weight _ _)

theorem populate_node_cell_est (dist : List ℚ → List ℚ → ℚ) (weighted : Bool)
    (graph : List Node) (node : Node) (hcl : node.unclassified = false)
    (nb : ℕ) (hnb : nb ∈ node.neighbors) (other : Node) (hother : graph.get? nb = some other)
    (m : AdjMatrix) : 1 ≤ populate_node dist weighted graph m node (node.id, nb) := by
  unfold populate_node
  rw [if_neg (by simp [hcl])]
  refine foldl_attain (P := fun m2 => 1 ≤ m2 (node.id, nb)) _ node.neighbors nb hnb
    (fun m2 => ?_) (fun m2 x _ hm2 => ?_) m
  · simp only [hother]
    exact one_le_mupdate_cell _ _ _ _
      (by rw [mupdate_same]; exact one_le_edge_weight _ _) (one_le_edge_weight _ _)
  · cases hg : graph.get? x with
    | none => simpa [hg] using hm2
    | some o2 =>
      simp only [hg]
      exact one_le_mupdate_cell _ _ _ _
        (one_le_mupdate_cell _ _ _ _ hm2 (one_le_edge_weight _ _)) (one_le_edge_weight _ _)

theorem one_le_populate (dist : List ℚ → List ℚ → ℚ) (weighted : Bool) (graph : List Node)
    (node : Node) (hmem : node ∈ graph) (hcl : node.unclassified = false)
    (nb : ℕ) (hnb : nb ∈ node.neighbors) (other : Node) (hother : graph.get? nb = some other) :
    1 ≤ populate dist weighted graph (node.id, nb) := by
  unfold populate
  exact foldl_attain (P := fun m2 => 1 ≤ m2 (node.id, nb))
    (populate_node dist weighted graph) graph node hmem
    (fun m2 => populate_node_cell_est dist weighted graph node hcl nb hnb other hother m2)
    (fun m2 x _ hm2 => populate_node_cell_pres dist weighted graph x m2 (node.id, nb) hm2) _

theorem mupdate_cell_eq (m : AdjMatrix) (q : ℕ × ℕ) (w v : W) (cell : ℕ × ℕ)
    (h : m cell = v) (hq : w = v ∨ q ≠ cell) : mupdate m q w cell = v := by
  unfold mupdate
  split
  · rcases hq with hw | hne
    · exact hw
    · rename_i hc; exact absurd hc.symm hne
  · exact h

theorem populate_avoid (dist : List ℚ → List ℚ → ℚ) (weighted : Bool) (graph : List Node)
    (uid : ℕ)
    (h : ∀ node ∈ graph, node.unclassified = false →
      node.id ≠ uid ∧ ∀ nb ∈ node.neighbors, nb ≠ uid) :
    ∀ j, populate dist weighted graph (uid, j) = 0 ∧ populate dist weighted graph (j, uid) = 0 := by
  intro j
  unfold populate
  refine foldl_pres
    (P := fun m2 : AdjMatrix => m2 (uid, j) = 0 ∧ m2 (j, uid) = 0) _ graph _ ?_ ⟨rfl, rfl⟩
  intro m node hnode hm
  unfold populate_node
  split
  · exact hm
  · rename_i huncl
    have hcl : node.unclassified = false := by
      cases hu : node.unclassified
      · rfl
      · exact absurd hu huncl
    rcases h node hnode hcl with ⟨hid, hnbs⟩
    refine foldl_pres
      (P := fun m2 : AdjMatrix => m2 (uid, j) = 0 ∧ m2 (j, uid) = 0) _ node.neighbors m ?_ hm
    intro m2 nb hnb hm2
    cases hg : graph.get? nb with
    | none => simpa [hg] using hm2
    | some other =>
      simp only [hg]
      have hnbne : nb ≠ uid := hnbs nb hnb
      constructor
      · refine mupdate_cell_eq _ _ _ _ _
          (mupdate_cell_eq _ _ _ _ _ hm2.1 (Or.inr ?_)) (Or.inr ?_)
        · intro hc; exact hid (congrArg Prod.fst hc)
        · intro hc; exact hnbne (congrArg Prod.fst hc)
      · refine mupdate_cell_eq _ _ _ _ _
          (mupdate_cell_eq _ _ _ _ _ hm2.2 (Or.inr ?_)) (Or.inr ?_)
        · intro hc; exact hnbne (congrArg Prod.snd hc)
        · intro hc; exact hid (congrArg Prod.snd hc)

theorem populate_top_of (dist : List ℚ → List ℚ → ℚ) (graph : List Node) (i j : ℕ)
    (node other : Node) (hmem : node ∈ graph) (hid : node.id = i)
    (hcl : node.unclassified = false) (hnb : j ∈ node.neighbors)
    (hother : graph.get? j = some other)
    (hd : ∀ n1 ∈ graph, n1.unclassified = false →
      ∀ nb2 o2, graph.get? nb2 = some o2 → dist n1.descriptor o2.descriptor = 0) :
    populate dist true graph (i, j) = ⊤ := by
  unfold populate
  refine foldl_attain (P := fun m2 => m2 (i, j) = ⊤)
    (populate_node dist true graph) graph node hmem (fun m => ?_)
    (fun m x hx hm => ?_) _
  · unfold populate_node
    rw [if_neg (by simp [hcl])]
    refine foldl_attain (P := fun m2 => m2 (i, j) = ⊤) _ node.neighbors j hnb
      (fun m2 => ?_) (fun m2 nb _ hm2 => ?_) m
    · simp only [hother]
      have hw : edge_weight true (dist node.descriptor other.descriptor) = ⊤ := by
        rw [hd node hmem hcl j other hother]
        simp [edge_weight]
      rw [hw, hid]
      by_cases hij : ((i : ℕ), (j : ℕ)) = ((j : ℕ), (i : ℕ))
      · rw [show ((j : ℕ), (i : ℕ)) = ((i : ℕ), (j : ℕ)) from hij.symm, mupdate_same]
      · rw [mupdate_other _ _ _ _ hij, mupdate_same]
    · cases hg : graph.get? nb with
      | none => simpa [hg] using hm2
      | some o2 =>
        simp only [hg]
        have hw : edge_weight true (dist node.descriptor o2.descriptor) = ⊤ := by
          rw [hd node hmem hcl nb o2 hg]
          simp [edge_weight]
        rw [hw]
        exact mupdate_cell_eq _ _ _ _ _
          (mupdate_cell_eq _ _ _ _ _ hm2 (Or.inl rfl)) (Or.inl rfl)
  · unfold populate_node
    split
    · exact hm
    · rename_i huncl
      have hclx : x.unclassified = false := by
        cases hu : x.unclassified
        · rfl
        · exact absurd hu huncl
      refine foldl_pres (P := fun m2 => m2 (i, j) = ⊤) _ x.neighbors m ?_ hm
      intro m2 nb hnbx hm2
      cases hg : graph.get? nb with
      | none => simpa [hg] using hm2
      | some o2 =>
        simp only [hg]
        have hw : edge_weight true (dist x.descriptor o2.descriptor) = ⊤ := by
          rw [hd x hx hclx nb o2 hg]
          simp [edge_weight]
        rw [hw]
        exact mupdate_cell_eq _ _ _ _ _
          (mupdate_cell_eq _ _ _ _ _ hm2 (Or.inl rfl)) (Or.inl rfl)

/-! ## Lemmas about one loop iteration and the loop -/

theorem set_get?_self {α : Type} : ∀ (l : List α) (n : ℕ) (a : α),
    l.get? n = some a → l.set n a = l := by
  intro l
  induction l with
  | nil => intro n a h; cases h
  | cons x t ih =>
    intro n a h
    cases n with
    | zero =>
      rw [List.get?_cons_zero, Option.some.injEq] at h
      rw [← h, List.set_cons_zero]
    | succ n =>
      rw [List.get?_cons_succ] at h
      rw [List.set_cons_succ, ih n a h]

theorem whispers_round_skip_uncl (adj : AdjMatrix) (graph : List Node) (c : ℕ × ℕ)
    (count past : ℤ) (node : Node)
    (hn : graph.get? (c.1 % graph.length) = some node) (hu : node.unclassified = true) :
    whispers_round adj graph c count past = .ok (graph, count, past, false) := by
  unfold whispers_round
  rw [hn]
  simp [hu]

theorem whispers_round_skip_nonb (adj : AdjMatrix) (graph : List Node) (c : ℕ × ℕ)
    (count past : ℤ) (node : Node)
    (hn : graph.get? (c.1 % graph.length) = some node) (hu : node.unclassified = false)
    (hnb : node.neighbors = []) :
    whispers_round adj graph c count past = .ok (graph, count, past, false) := by
  unfold whispers_round
  rw [hn]
  simp [hu, hnb]

theorem whispers_round_update (adj : AdjMatrix) (graph : List Node) (c : ℕ × ℕ)
    (count past : ℤ) (node : Node) (k nbId : ℕ) (nbNode : Node)
    (hn : graph.get? (c.1 % graph.length) = some node)
    (hu : node.unclassified = false) (hnb : node.neighbors ≠ [])
    (hk : pick_index c.2 (tied_indices (freqs adj node)) = .ok k)
    (hnbid : node.neighbors.get? k = some nbId)
    (hnbnode : graph.get? nbId = some nbNode) :
    whispers_round adj graph c count past =
      (if (if nbNode.label ≠ node.label then count - 1 else count) = past then
        .ok (graph.set (c.1 % graph.length) { node with label := nbNode.label },
          (if nbNode.label ≠ node.label then count - 1 else count), past, true)
      else
        .ok (graph.set (c.1 % graph.length) { node with label := nbNode.label },
          (if nbNode.label ≠ node.label then count - 1 else count),
          (if nbNode.label ≠ node.label then count - 1 else count), false)) := by
  unfold whispers_round
  rw [hn]
  simp only [hu, Bool.false_eq_true, if_false, hnb, hk, hnbid, hnbnode, if_neg hnb]

/-- Every successful iteration either leaves the node list unchanged or
rewrites exactly the drawn (classified) position with a relabelled copy of
the drawn node, the new label being the current label of a node looked up at
one of its neighbor ids. -/
theorem whispers_round_cases (adj : AdjMatrix) (graph : List Node) (c : ℕ × ℕ)
    (count past : ℤ) (res : List Node × ℤ × ℤ × Bool)
    (h : whispers_round adj graph c count past = .ok res) :
    res.1 = graph ∨
      ∃ node nbId nbNode, graph.get? (c.1 % graph.length) = some node ∧
        node.unclassified = false ∧ nbId ∈ node.neighbors ∧
        graph.get? nbId = some nbNode ∧
        res.1 = graph.set (c.1 % graph.length) { node with label := nbNode.label } := by
  unfold whispers_round at h
  split at h
  · cases h
  · rename_i node hn
    split at h
    · rename_i hu
      rw [Except.ok.injEq] at h
      exact Or.inl (by rw [← h])
    · rename_i hu
      split at h
      · rw [Except.ok.injEq] at h
        exact Or.inl (by rw [← h])
      · rename_i hnb
        split at h
        · cases h
        · rename_i k hk
          split at h
          · cases h
          · rename_i nbId hnbid
            split at h
            · cases h
            · rename_i nbNode hnbnode
              refine Or.inr ⟨node, nbId, nbNode, hn, Bool.not_eq_true _ ▸ hu,
                List.get?_mem hnbid, hnbnode, ?_⟩
              simp only [ne_eq] at h
              split at h <;> split at h <;> (rw [Except.ok.injEq] at h; rw [← h])

/-- A successful iteration never changes anything but a label. -/
theorem whispers_round_strip (adj : AdjMatrix) (graph : List Node) (c : ℕ × ℕ)
    (count past : ℤ) (res : List Node × ℤ × ℤ × Bool)
    (h : whispers_round adj graph c count past = .ok res) :
    res.1.map strip = graph.map strip := by
  rcases whispers_round_cases adj graph c count past res h with heq | ⟨node, nbId, nbNode, hn, _, _, _, heq⟩
  · rw [heq]
  · rw [heq, List.map_set]
    have hstrip : strip { node with label := nbNode.label } = strip node := rfl
    rw [hstrip]
    apply set_get?_self
    rw [List.get?_map, hn]
    rfl

/-- Generic invariant-preservation for the iteration loop. -/
theorem whispers_loop_inv (adj : AdjMatrix) (orc : ℕ → ℕ × ℕ) (P : List Node → Prop)
    (hstep : ∀ g c count past res, P g →
      whispers_round adj g c count past = .ok res → P res.1) :
    ∀ (fuel rounds : ℕ) (g : List Node) (count past : ℤ) (g2 : List Node) (r2 : ℕ),
      P g → whispers_loop adj orc fuel rounds g count past = .ok (g2, r2) → P g2 := by
  intro fuel
  induction fuel with
  | zero =>
    intro rounds g count past g2 r2 hg h
    unfold whispers_loop at h
    rw [Except.ok.injEq, Prod.mk.injEq] at h
    rw [← h.1]
    exact hg
  | succ f ih =>
    intro rounds g count past g2 r2 hg h
    unfold whispers_loop at h
    split at h
    · cases h
    · rename_i g3 c3 p3 b3 hr
      have hg3 : P g3 := hstep g (orc rounds) count past (g3, c3, p3, b3) hg hr
      split at h
      · rw [Except.ok.injEq, Prod.mk.injEq] at h
        rw [← h.1]
        exact hg3
      · exact ih (rounds + 1) g3 c3 p3 g2 r2 hg3 h

/-- `whispers` decomposed: the returned matrix is always the populated one and
the node list comes from the loop. -/
theorem whispers_ok_elim (dist : List ℚ → List ℚ → ℚ) (graph : List Node) (mi : ℕ)
    (wm : Bool) (orc : ℕ → ℕ × ℕ) (adj : AdjMatrix) (g2 : List Node) (r : ℕ)
    (h : whispers dist graph mi wm orc = .ok (adj, g2, r)) :
    adj = populate dist wm graph ∧
      whispers_loop (populate dist wm graph) orc mi 0 graph
        (graph.length : ℤ) (graph.length : ℤ) = .ok (g2, r) := by
  unfold whispers at h
  split at h
  · cases h
  · rename_i g3 r3 hl
    rw [Except.ok.injEq, Prod.mk.injEq] at h
    refine ⟨h.1.symm, ?_⟩
    rw [hl, h.2]

theorem whispers_ok_intro (dist : List ℚ → List ℚ → ℚ) (graph : List Node) (mi : ℕ)
    (wm : Bool) (orc : ℕ → ℕ × ℕ) (g2 : List Node) (r : ℕ)
    (h : whispers_loop (populate dist wm graph) orc mi 0 graph
      (graph.length : ℤ) (graph.length : ℤ) = .ok (g2, r)) :
    whispers dist graph mi wm orc = .ok (populate dist wm graph, g2, r) := by
  unfold whispers
  rw [h]

/-! ## Structural lemmas about `create_graph` -/

theorem initial_nodes_aux_length : ∀ (items : List (List (List ℚ))) (n : ℕ),
    (initial_nodes_aux n items).length = items.length := by
  intro items
  induction items with
  | nil => intro n; rfl
  | cons fps rest ih =>
    intro n
    unfold initial_nodes_aux
    split <;> simp [ih (n + 1)]

theorem initial_nodes_aux_get? : ∀ (items : List (List (List ℚ))) (n i : ℕ) (node : Node),
    (initial_nodes_aux n items).get? i = some node →
      node.id = n + i ∧ node.label = n + i ∧ node.neighbors = [] := by
  intro items
  induction items with
  | nil => intro n i node h; cases h
  | cons fps rest ih =>
    intro n i node h
    unfold initial_nodes_aux at h
    cases i with
    | zero =>
      split at h <;>
        (rw [List.get?_cons_zero, Option.some.injEq] at h; rw [← h]; exact ⟨rfl, rfl, rfl⟩)
    | succ i =>
      split at h <;>
        (rw [List.get?_cons_succ] at h
         obtain ⟨h1, h2, h3⟩ := ih (n + 1) i node h
         exact ⟨by omega, by omega, h3⟩)

theorem fill_neighbors_aux_length (dist : List ℚ → List ℚ → ℚ) (g : List Node)
    (threshold : ℚ) : ∀ (l : List Node) (p1 : ℕ),
    (fill_neighbors_aux dist g threshold p1 l).length = l.length := by
  intro l
  induction l with
  | nil => intro p1; rfl
  | cons node1 rest ih =>
    intro p1
    unfold fill_neighbors_aux
    simp [ih (p1 + 1)]

theorem fill_neighbors_aux_get? (dist : List ℚ → List ℚ → ℚ) (g : List Node)
    (threshold : ℚ) : ∀ (l : List Node) (p1 i : ℕ),
    (fill_neighbors_aux dist g threshold p1 l).get? i =
      (l.get? i).map (fun n1 =>
        if n1.unclassified then n1
        else { n1 with neighbors := neighbors_for_aux dist n1.descriptor (p1 + i) threshold 0 g }) := by
  intro l
  induction l with
  | nil => intro p1 i; simp [fill_neighbors_aux]
  | cons node1 rest ih =>
    intro p1 i
    cases i with
    | zero => simp [fill_neighbors_aux]
    | succ i =>
      have h : p1 + 1 + i = p1 + (i + 1) := by omega
      unfold fill_neighbors_aux
      rw [List.get?_cons_succ, List.get?_cons_succ, ih (p1 + 1) i]
      simp only [h]

theorem create_graph_length (dist : List ℚ → List ℚ → ℚ) (items : List (List (List ℚ)))
    (threshold : ℚ) : (create_graph dist items threshold).length = items.length := by
  unfold create_graph initial_nodes
  rw [fill_neighbors_aux_length, initial_nodes_aux_length]

theorem create_graph_get? (dist : List ℚ → List ℚ → ℚ) (items : List (List (List ℚ)))
    (threshold : ℚ) (i : ℕ) :
    (create_graph dist items threshold).get? i =
      ((initial_nodes items).get? i).map (fun n1 =>
        if n1.unclassified then n1
        else { n1 with
          neighbors := neighbors_for_aux dist n1.descriptor i threshold 0 (initial_nodes items) }) := by
  unfold create_graph
  rw [fill_neighbors_aux_get? dist (initial_nodes items) threshold (initial_nodes items) 0 i]
  simp only [Nat.zero_add]

theorem create_graph_ids (dist : List ℚ → List ℚ → ℚ) (items : List (List (List ℚ)))
    (threshold : ℚ) (i : ℕ) (node : Node)
    (h : (create_graph dist items threshold).get? i = some node) :
    node.id = i ∧ node.label = i := by
  rw [create_graph_get?] at h
  rcases Option.map_eq_some'.mp h with ⟨n1, hn1, hnode⟩
  obtain ⟨hid, hlab, -⟩ := initial_nodes_aux_get? items 0 i n1 hn1
  have hid2 : n1.id = i := by omega
  have hlab2 : n1.label = i := by omega
  rw [← hnode]
  split
  · exact ⟨hid2, hlab2⟩
  · exact ⟨hid2, hlab2⟩

theorem mem_neighbors_for_aux_exists (dist : List ℚ → List ℚ → ℚ) (d1 : List ℚ)
    (p1 : ℕ) (threshold : ℚ) :
    ∀ (l : List Node) (p2 nb : ℕ), nb ∈ neighbors_for_aux dist d1 p1 threshold p2 l →
      ∃ i node2, l.get? i = some node2 ∧ node2.unclassified = false ∧ nb = node2.id := by
  intro l
  induction l with
  | nil => intro p2 nb h; cases h
  | cons node2 rest ih =>
    intro p2 nb h
    unfold neighbors_for_aux at h
    split at h
    · rcases ih (p2 + 1) nb h with ⟨i, n2, hget, hcl, hid⟩
      exact ⟨i + 1, n2, by rw [List.get?_cons_succ]; exact hget, hcl, hid⟩
    · rename_i huncl
      split at h
      · rcases List.mem_cons.mp h with heq | hmem
        · exact ⟨0, node2, List.get?_cons_zero, Bool.not_eq_true _ ▸ huncl, heq⟩
        · rcases ih (p2 + 1) nb hmem with ⟨i, n2, hget, hcl, hid⟩
          exact ⟨i + 1, n2, by rw [List.get?_cons_succ]; exact hget, hcl, hid⟩
      · rcases ih (p2 + 1) nb h with ⟨i, n2, hget, hcl, hid⟩
        exact ⟨i + 1, n2, by rw [List.get?_cons_succ]; exact hget, hcl, hid⟩

theorem mem_neighbors_for_aux_intro (dist : List ℚ → List ℚ → ℚ) (d1 : List ℚ)
    (p1 : ℕ) (threshold : ℚ) :
    ∀ (l : List Node) (p2 i : ℕ) (node2 : Node), l.get? i = some node2 →
      node2.unclassified = false → p2 + i ≠ p1 → dist d1 node2.descriptor < threshold →
      node2.id ∈ neighbors_for_aux dist d1 p1 threshold p2 l := by
  intro l
  induction l with
  | nil => intro p2 i node2 h; cases h
  | cons node2x rest ih =>
    intro p2 i node2 hget hcl hne hdist
    cases i with
    | zero =>
      rw [List.get?_cons_zero, Option.some.injEq] at hget
      subst hget
      unfold neighbors_for_aux
      rw [if_neg (by simp [hcl])]
      rw [if_pos ⟨by omega, hdist⟩]
      exact List.mem_cons_self _ _
    | succ i =>
      rw [List.get?_cons_succ] at hget
      have hmem := ih (p2 + 1) i node2 hget hcl (by omega) hdist
      unfold neighbors_for_aux
      split
      · exact hmem
      · split
        · exact List.mem_cons_of_mem _ hmem
        · exact hmem

theorem neighbors_for_aux_subset (dist : List ℚ → List ℚ → ℚ) (d1 : List ℚ)
    (p1 : ℕ) (t1 t2 : ℚ) (h12 : t1 ≤ t2) :
    ∀ (l : List Node) (p2 : ℕ),
      neighbors_for_aux dist d1 p1 t1 p2 l ⊆ neighbors_for_aux dist d1 p1 t2 p2 l := by
  intro l
  induction l with
  | nil => intro p2; exact fun x h => h
  | cons node2 rest ih =>
    intro p2
    unfold neighbors_for_aux
    split
    · exact ih (p2 + 1)
    · split
      · rename_i hcond
        rw [if_pos ⟨hcond.1, lt_of_lt_of_le hcond.2 h12⟩]
        exact List.cons_subset_cons _ (ih (p2 + 1))
      · split
        · exact List.subset_cons_of_subset _ (ih (p2 + 1))
        · exact ih (p2 + 1)

/-! ## Concrete fixtures used by witnesses and counterexamples -/

/-- Two identical classified nodes, mutual neighbors, fresh labels
(`create_graph dist01 [[[1]], [[1]]] 1` evaluates to this). -/
def gPair : List Node := [⟨0, [1], [1], 0, false⟩, ⟨1, [0], [1], 1, false⟩]

/-- The same two-node clique after both labels merged to `1`: a converged
collection. -/
def gConv : List Node := [⟨0, [1], [1], 1, false⟩, ⟨1, [0], [1], 1, false⟩]

/-- Oracle drawing node `k` in round `k`, always tie-breaking to index `0`. -/
def orcK : ℕ → ℕ × ℕ := fun k => (k, 0)

/-- Oracle constantly drawing node `0` with tie-break index `0`. -/
def orc0 : ℕ → ℕ × ℕ := fun _ => (0, 0)

/-! ## The claims -/

/-- C9: with `max_iterations = 0` the loop body never runs: `whispers` returns
the adjacency matrix built from the neighbor lists together with the
untouched node collection (so every label keeps its initial value), and on
`create_graph` output every initial label is the node's own id. -/
theorem whispers_zero_iterations (dist : List ℚ → List ℚ → ℚ) (graph : List Node)
    (wm : Bool) (orc : ℕ → ℕ × ℕ) :
    whispers dist graph 0 wm orc = .ok (populate dist wm graph, graph, 0) ∧
    ∀ (items : List (List (List ℚ))) (t : ℚ) (i : ℕ) (n : Node),
      (create_graph dist items t).get? i = some n → n.label = n.id := by
  constructor
  · rfl
  · intro items t i n h
    obtain ⟨hid, hlab⟩ := create_graph_ids dist items t i n h
    rw [hid, hlab]

/-- Witness for C9 at a concrete collection. -/
theorem whispers_zero_iterations_witness :
    whispers dist01 gPair 0 true orcK = .ok (populate dist01 true gPair, gPair, 0) ∧
    (Node.mk 0 [1] [1] 0 false).label = (Node.mk 0 [1] [1] 0 false).id :=
  ⟨(whispers_zero_iterations dist01 gPair true orcK).1,
    (whispers_zero_iterations dist01 gPair true orcK).2 [[[1]], [[1]]] 1 0
      (Node.mk 0 [1] [1] 0 false) (by rfl)⟩

/-- C3 (code_bug record): on the empty node collection with any positive
`max_iterations`, the code is *not* a no-op: `random.choice(graph)` raises
`IndexError` on the first iteration, contradicting the spec's degenerate-case
requirement; the model evaluates to that error. -/
theorem whispers_empty_collection_errors (dist : List ℚ → List ℚ → ℚ) (mi : ℕ)
    (wm : Bool) (orc : ℕ → ℕ × ℕ) (hmi : 1 ≤ mi) :
    whispers dist [] mi wm orc = .error "IndexError: Cannot choose from an empty sequence" := by
  obtain ⟨f, rfl⟩ : ∃ f, mi = f + 1 := ⟨mi - 1, by omega⟩
  rfl

/-- Witness for C3 at the failing input itself. -/
theorem whispers_empty_collection_errors_witness :
    whispers cosine_distance [] 1 true orc0 =
      .error "IndexError: Cannot choose from an empty sequence" :=
  whispers_empty_collection_errors cosine_distance 1 true orc0 (le_refl 1)

/-- C5: the adjacency matrix is symmetric — every pair of writes at
lines 112-117 stores the same value at `(i, j)` and `(j, i)` — both for the
populated matrix itself and for the matrix returned by a successful
`whispers` run, in weighted and unweighted mode alike. -/
theorem adjacency_symmetric (dist : List ℚ → List ℚ → ℚ) (wm : Bool) (graph : List Node) :
    (∀ i j, populate dist wm graph (i, j) = populate dist wm graph (j, i)) ∧
    ∀ (mi : ℕ) (orc : ℕ → ℕ × ℕ) (adj : AdjMatrix) (g2 : List Node) (r : ℕ),
      whispers dist graph mi wm orc = .ok (adj, g2, r) → ∀ i j, adj (i, j) = adj (j, i) := by
  refine ⟨fun i j => populate_symm dist wm graph i j, ?_⟩
  intro mi orc adj g2 r h i j
  obtain ⟨hadj, -⟩ := whispers_ok_elim dist graph mi wm orc adj g2 r h
  rw [hadj]
  exact populate_symm dist wm graph i j

/-- Witness for C5 on a concrete successful run. -/
theorem adjacency_symmetric_witness :
    populate dist01 true gPair (0, 1) = populate dist01 true gPair (1, 0) :=
  (adjacency_symmetric dist01 true gPair).2 0 orcK
    (populate dist01 true gPair) gPair 0 rfl 0 1

/-- C8: for a fixed descriptor collection, raising the threshold only adds
edges: every neighbor list produced at threshold `t1 < t2` is contained in
the one produced at `t2`. -/
theorem threshold_monotone (dist : List ℚ → List ℚ → ℚ) (items : List (List (List ℚ)))
    (t1 t2 : ℚ) (h12 : t1 < t2) :
    ∀ (p : ℕ) (n1 n2 : Node), (create_graph dist items t1).get? p = some n1 →
      (create_graph dist items t2).get? p = some n2 → n1.neighbors ⊆ n2.neighbors := by
  intro p n1 n2 h1 h2
  rw [create_graph_get?] at h1 h2
  rcases Option.map_eq_some'.mp h1 with ⟨m1, hm1, hn1⟩
  rcases Option.map_eq_some'.mp h2 with ⟨m2, hm2, hn2⟩
  rw [hm1, Option.some.injEq] at hm2
  subst hm2
  rw [← hn1, ← hn2]
  by_cases hu : m1.unclassified
  · rw [if_pos hu, if_pos hu]
    exact List.Subset.refl _
  · rw [if_neg hu, if_neg hu]
    exact neighbors_for_aux_subset dist m1.descriptor p t1 t2 (le_of_lt h12)
      (initial_nodes items) 0

/-- Witness for C8: at threshold `1/2` the two far-apart descriptors produce
no edge, at threshold `2` they do, and the former neighbor list is contained
in the latter. -/
theorem threshold_monotone_witness :
    (Node.mk 0 [] [1] 0 false).neighbors ⊆ (Node.mk 0 [1] [1] 0 false).neighbors :=
  threshold_monotone dist01 [[[1]], [[0]]] 1 2 (by norm_num) 0
    (Node.mk 0 [] [1] 0 false) (Node.mk 0 [1] [1] 0 false) (by rfl) (by rfl)

/-- C10: for a well-formed collection every adjacency entry between a
classified node and one of its neighbors is at least `1` (weighted mode
writes `1/d² + 1 ≥ 1`, with `⊤` at distance `0`; unweighted mode writes `1`),
the tied-index list of a node with neighbors is never empty (the maximum of a
non-empty frequency list is attained), and so an iteration of the update loop
never fails: `max_dupl_indices[0]` and the subsequent lookups always
succeed. -/
theorem adjacency_entries_positive (dist : List ℚ → List ℚ → ℚ) (wm : Bool)
    (graph : List Node)
    (hnb : ∀ n ∈ graph, n.unclassified = false → ∀ nb ∈ n.neighbors, nb < graph.length) :
    (∀ n ∈ graph, n.unclassified = false → ∀ nb ∈ n.neighbors,
        (1 : W) ≤ populate dist wm graph (n.id, nb)) ∧
    (∀ (adj : AdjMatrix) (node : Node), node.neighbors ≠ [] →
        tied_indices (freqs adj node) ≠ []) ∧
    (∀ (draw tie : ℕ) (count past : ℤ) (node : Node),
        graph.get? (draw % graph.length) = some node →
        ∃ res, whispers_round (populate dist wm graph) graph (draw, tie) count past = .ok res) := by
  refine ⟨?_, ?_, ?_⟩
  · intro n hn hcl nb hnbm
    cases hg : graph.get? nb with
    | none =>
      rw [List.get?_eq_none] at hg
      exact absurd (hnb n hn hcl nb hnbm) (by omega)
    | some other =>
      exact one_le_populate dist wm graph n hn hcl nb hnbm other hg
  · intro adj node hne
    exact tied_nonempty adj node hne
  · intro draw tie count past node hn
    by_cases hu : node.unclassified = true
    · exact ⟨_, whispers_round_skip_uncl _ graph (draw, tie) count past node hn hu⟩
    · have hcl : node.unclassified = false := Bool.not_eq_true _ ▸ hu
      by_cases hne : node.neighbors = []
      · exact ⟨_, whispers_round_skip_nonb _ graph (draw, tie) count past node hn hcl hne⟩
      · obtain ⟨k, hk⟩ := pick_index_ok tie (tied_indices (freqs (populate dist wm graph) node))
          (tied_nonempty _ node hne)
        obtain ⟨nbv, hknb, -⟩ :=
          (mem_tied_freqs (populate dist wm graph) node k).mp (pick_index_mem tie _ k hk)
        have hmem : node ∈ graph := List.get?_mem hn
        have hlt : nbv < graph.length := hnb node hmem hcl nbv (List.get?_mem hknb)
        cases hg : graph.get? nbv with
        | none =>
          rw [List.get?_eq_none] at hg
          exact absurd hlt (by omega)
        | some nbNode =>
          rw [whispers_round_update (populate dist wm graph) graph (draw, tie) count past
            node k nbv nbNode hn hcl hne hk hknb hg]
          by_cases hc : (if nbNode.label ≠ node.label then count - 1 else count) = past
          · rw [if_pos hc]; exact ⟨_, rfl⟩
          · rw [if_neg hc]; exact ⟨_, rfl⟩

/-- Constant adjacency used in a witness. -/
def adj1 : AdjMatrix := fun _ => 1

/-- The first node of `gPair`. -/
def nodeW : Node := ⟨0, [1], [1], 0, false⟩

/-- Witness for C10 on the two-node clique. -/
theorem adjacency_entries_positive_witness :
    ((1 : W) ≤ populate dist01 true gPair (nodeW.id, 1)) ∧
    (tied_indices (freqs adj1 nodeW) ≠ []) ∧
    (∃ res, whispers_round (populate dist01 true gPair) gPair (0, 0) 2 2 = .ok res) :=
  ⟨(adjacency_entries_positive dist01 true gPair (by decide)).1 nodeW (by decide) rfl 1
      (by decide),
    (adjacency_entries_positive dist01 true gPair (by decide)).2.1 adj1 nodeW (by decide),
    (adjacency_entries_positive dist01 true gPair (by decide)).2.2 0 0 2 2 nodeW (by rfl)⟩

/-- C1: when the drawn node is classified and has neighbors, the frequency
list holds one entry per neighbor edge (per-neighbor weights, not per-label
sums), `max_freq` bounds every such edge weight, `max_dupl_indices` is
exactly the set of neighbor indices attaining it, the sole maximal index is
taken deterministically while any tied index is reachable by some tie-break
draw, and the iteration rewrites the drawn node's label with the *current
label* of the chosen maximal neighbor. -/
theorem whispers_update_rule (adj : AdjMatrix) (graph : List Node) (draw : ℕ)
    (count past : ℤ) (node : Node)
    (hn : graph.get? (draw % graph.length) = some node)
    (hu : node.unclassified = false) (hnb : node.neighbors ≠ [])
    (hvalid : ∀ nb ∈ node.neighbors, nb < graph.length) :
    (∀ (k nb : ℕ), node.neighbors.get? k = some nb →
        adj (node.id, nb) ≤ max_freq (freqs adj node)) ∧
    (∀ k : ℕ, k ∈ tied_indices (freqs adj node) ↔
        ∃ nb, node.neighbors.get? k = some nb ∧
          adj (node.id, nb) = max_freq (freqs adj node)) ∧
    (∀ k : ℕ, tied_indices (freqs adj node) = [k] →
        ∀ tie : ℕ, pick_index tie (tied_indices (freqs adj node)) = .ok k) ∧
    (∀ k ∈ tied_indices (freqs adj node),
        ∃ tie, pick_index tie (tied_indices (freqs adj node)) = .ok k) ∧
    (∀ (tie k : ℕ), pick_index tie (tied_indices (freqs adj node)) = .ok k →
        ∃ nb nbNode, node.neighbors.get? k = some nb ∧ graph.get? nb = some nbNode ∧
          adj (node.id, nb) = max_freq (freqs adj node) ∧
          ∃ c2 p2 b, whispers_round adj graph (draw, tie) count past =
            .ok (graph.set (draw % graph.length) { node with label := nbNode.label },
              c2, p2, b)) := by
  refine ⟨?_, fun k => mem_tied_freqs adj node k, ?_, fun k hk => pick_index_surj _ k hk, ?_⟩
  · intro k nb hk
    exact le_max_freq (freqs adj node) (k, adj (node.id, nb))
      ((mem_freqs adj node (k, adj (node.id, nb))).mpr ⟨nb, hk, rfl⟩)
  · intro k hsing tie
    rw [hsing]
    exact pick_index_singleton tie k
  · intro tie k hpick
    obtain ⟨nb, hknb, hmax⟩ :=
      (mem_tied_freqs adj node k).mp (pick_index_mem tie _ k hpick)
    have hlt : nb < graph.length := hvalid nb (List.get?_mem hknb)
    cases hg : graph.get? nb with
    | none =>
      rw [List.get?_eq_none] at hg
      exact absurd hlt (by omega)
    | some nbNode =>
      refine ⟨nb, nbNode, hknb, hg, hmax, ?_⟩
      rw [whispers_round_update adj graph (draw, tie) count past node k nb nbNode
        hn hu hnb hpick hknb hg]
      by_cases hc : (if nbNode.label ≠ node.label then count - 1 else count) = past
      · rw [if_pos hc]; exact ⟨_, _, _, rfl⟩
      · rw [if_neg hc]; exact ⟨_, _, _, rfl⟩

/-- Witness for C1 on the two-node clique with the constant matrix. -/
theorem whispers_update_rule_witness :
    (∀ (k nb : ℕ), nodeW.neighbors.get? k = some nb →
        adj1 (nodeW.id, nb) ≤ max_freq (freqs adj1 nodeW)) ∧
    (∀ k : ℕ, k ∈ tied_indices (freqs adj1 nodeW) ↔
        ∃ nb, nodeW.neighbors.get? k = some nb ∧
          adj1 (nodeW.id, nb) = max_freq (freqs adj1 nodeW)) ∧
    (∀ k : ℕ, tied_indices (freqs adj1 nodeW) = [k] →
        ∀ tie : ℕ, pick_index tie (tied_indices (freqs adj1 nodeW)) = .ok k) ∧
    (∀ k ∈ tied_indices (freqs adj1 nodeW),
        ∃ tie, pick_index tie (tied_indices (freqs adj1 nodeW)) = .ok k) ∧
    (∀ (tie k : ℕ), pick_index tie (tied_indices (freqs adj1 nodeW)) = .ok k →
        ∃ nb nbNode, nodeW.neighbors.get? k = some nb ∧ gPair.get? nb = some nbNode ∧
          adj1 (nodeW.id, nb) = max_freq (freqs adj1 nodeW) ∧
          ∃ c2 p2 b, whispers_round adj1 gPair (0, tie) 2 2 =
            .ok (gPair.set (0 % gPair.length) { nodeW with label := nbNode.label },
              c2, p2, b)) :=
  whispers_update_rule adj1 gPair 0 2 2 nodeW rfl rfl (by decide) (by decide)

/-- Unfolding a true `node_converged` at a classified node with neighbors:
every tied maximal neighbor exists and already carries the node's label. -/
theorem node_converged_elim (adj : AdjMatrix) (g : List Node) (p : ℕ) (node : Node)
    (hn : g.get? p = some node) (hu : node.unclassified = false)
    (hnb : node.neighbors ≠ []) (hconv : node_converged adj g p = true) :
    ∀ k ∈ tied_indices (freqs adj node), ∃ nbId nb, node.neighbors.get? k = some nbId ∧
      g.get? nbId = some nb ∧ nb.label = node.label := by
  unfold node_converged at hconv
  split at hconv
  · rename_i hnone
    rw [hn] at hnone
    cases hnone
  · rename_i node2 hn2
    rw [hn, Option.some.injEq] at hn2
    subst hn2
    rw [if_neg (by simp [hu]), if_neg hnb] at hconv
    intro k hk
    have hfk := List.all_eq_true.mp hconv k hk
    split at hfk
    · cases hfk
    · rename_i nbId hnbid
      split at hfk
      · cases hfk
      · rename_i nb hnbv
        exact ⟨nbId, nb, hnbid, hnbv, beq_iff_eq.mp hfk⟩

/-- C2 (amended): on a converged collection the loop breaks on the *first
iteration that draws a classified node with at least one neighbor* — the
label is rewritten to its current value, `num_labels_count` stays at
`past_labels`, and `whispers` returns after exactly one iteration with the
collection unchanged.  (Iterations drawing unclassified or neighbor-less
nodes are skipped but still consume the budget, which is what refutes the
claim's unconditional "within one iteration".) -/
theorem converged_first_effective_draw_breaks (dist : List ℚ → List ℚ → ℚ)
    (graph : List Node) (mi : ℕ) (wm : Bool) (orc : ℕ → ℕ × ℕ) (node : Node)
    (hconv : converged (populate dist wm graph) graph = true)
    (hmi : 1 ≤ mi)
    (hn : graph.get? ((orc 0).1 % graph.length) = some node)
    (hu : node.unclassified = false) (hnb : node.neighbors ≠ []) :
    whispers dist graph mi wm orc = .ok (populate dist wm graph, graph, 1) := by
  obtain ⟨f, rfl⟩ : ∃ f, mi = f + 1 := ⟨mi - 1, by omega⟩
  apply whispers_ok_intro
  have hp : (orc 0).1 % graph.length < graph.length := (List.get?_eq_some.mp hn).1
  have hnc : node_converged (populate dist wm graph) graph ((orc 0).1 % graph.length) = true :=
    List.all_eq_true.mp hconv _ (List.mem_range.mpr hp)
  obtain ⟨k, hk⟩ := pick_index_ok (orc 0).2
    (tied_indices (freqs (populate dist wm graph) node))
    (tied_nonempty _ node hnb)
  obtain ⟨nbId, nb, hknb, hgnb, hlbl⟩ :=
    node_converged_elim (populate dist wm graph) graph _ node hn hu hnb hnc k
      (pick_index_mem _ _ k hk)
  have hround := whispers_round_update (populate dist wm graph) graph (orc 0)
    (graph.length : ℤ) (graph.length : ℤ) node k nbId nb hn hu hnb hk hknb hgnb
  have hinner : (if nb.label ≠ node.label then (graph.length : ℤ) - 1 else (graph.length : ℤ)) =
      (graph.length : ℤ) := by
    rw [if_neg (by simp [hlbl])]
  rw [hinner, if_pos rfl] at hround
  have hset : graph.set ((orc 0).1 % graph.length) { node with label := nb.label } = graph := by
    rw [hlbl]
    exact set_get?_self graph _ node hn
  rw [hset] at hround
  unfold whispers_loop
  rw [hround]
  rfl

/-- Witness for the amended C2: on the converged two-node clique the first
draw is effective and the run stops after exactly one iteration, labels
unchanged. -/
theorem converged_first_effective_draw_breaks_witness :
    whispers dist01 gConv 5 true orc0 = .ok (populate dist01 true gConv, gConv, 1) :=
  converged_first_effective_draw_breaks dist01 gConv 5 true orc0
    ⟨0, [1], [1], 1, false⟩ (by decide) (by omega) rfl rfl (by decide)

/-- A single classified node with no neighbors: trivially converged (no label
change is ever possible). -/
def gIso : List Node := [⟨0, [], [], 0, false⟩]

/-- Counterexample to C2 as stated: `gIso` is converged, yet `whispers` with
`max_iterations = 3` executes all three iterations (each skipped round still
counts toward the budget and never triggers the convergence `break`), so the
run does not terminate within one iteration. -/
theorem converged_runs_full_budget :
    converged (populate dist01 true gIso) gIso = true ∧
    whispers dist01 gIso 3 true orc0 = .ok (populate dist01 true gIso, gIso, 3) ∧
    ¬ (3 : ℕ) ≤ 1 :=
  ⟨by decide, by rfl, by omega⟩

/-- Node construction over a collection of identical single-fingerprint
items: every node is classified with descriptor `fp` and id `n + i`. -/
theorem initial_nodes_replicate (fp : List ℚ) :
    ∀ (m n i : ℕ), i < m →
      (initial_nodes_aux n (List.replicate m [fp])).get? i =
        some (Node.mk (n + i) [] fp (n + i) false) := by
  intro m
  induction m with
  | zero => intro n i hi; omega
  | succ m ih =>
    intro n i hi
    rw [List.replicate_succ]
    cases i with
    | zero => rfl
    | succ i =>
      show (initial_nodes_aux (n + 1) (List.replicate m [fp])).get? i = _
      rw [ih (n + 1) i (by omega)]
      have h : n + 1 + i = n + (i + 1) := by omega
      rw [h]

/-- `initial_nodes_replicate` started at `node_num = 0`. -/
theorem initial_nodes_replicate_zero (fp : List ℚ) (m i : ℕ) (hi : i < m) :
    (initial_nodes (List.replicate m [fp])).get? i = some (Node.mk i [] fp i false) := by
  unfold initial_nodes
  rw [initial_nodes_replicate fp m 0 i hi]
  simp only [Nat.zero_add]

/-- `create_graph` on identical single-fingerprint items, below any
position `< m`: a classified node with descriptor `fp` whose neighbor list is
the inner-loop result. -/
theorem create_graph_replicate_get? (dist : List ℚ → List ℚ → ℚ) (fp : List ℚ)
    (m : ℕ) (t : ℚ) (i : ℕ) (hi : i < m) :
    (create_graph dist (List.replicate m [fp]) t).get? i =
      some (Node.mk i
        (neighbors_for_aux dist fp i t 0 (initial_nodes (List.replicate m [fp])))
        fp i false) := by
  rw [create_graph_get?]
  rw [initial_nodes_replicate_zero fp m i hi]
  rfl

/-- C4 (amended): with all classified descriptors identical (pairwise
distance `0`) and a positive threshold, every ordered pair of distinct
positions is a neighbor pair, and every off-diagonal adjacency entry within
the collection is the uniform infinite weight `⊤` (the division `1/0² + 1` is
modelled as `⊤`, never an error).  The original claim's final part — that
propagation then reaches a single shared label — is refuted by
`identical_descriptors_two_labels_remain` and is not asserted here. -/
theorem identical_descriptors_clique (dist : List ℚ → List ℚ → ℚ) (fp : List ℚ)
    (m : ℕ) (threshold : ℚ) (hd : dist fp fp = 0) (ht : 0 < threshold) :
    (∀ p1 p2 : ℕ, p1 < m → p2 < m → p1 ≠ p2 → ∀ n1,
        (create_graph dist (List.replicate m [fp]) threshold).get? p1 = some n1 →
        p2 ∈ n1.neighbors) ∧
    (∀ p1 p2 : ℕ, p1 < m → p2 < m → p1 ≠ p2 →
        populate dist true (create_graph dist (List.replicate m [fp]) threshold) (p1, p2) = ⊤) := by
  have hdesc : ∀ (q : ℕ) (x : Node),
      (create_graph dist (List.replicate m [fp]) threshold).get? q = some x →
      x.descriptor = fp ∧ x.unclassified = false := by
    intro q x hx
    have hq : q < m := by
      have := (List.get?_eq_some.mp hx).1
      rw [create_graph_length] at this
      simpa using this
    rw [create_graph_replicate_get? dist fp m threshold q hq, Option.some.injEq] at hx
    rw [← hx]
    exact ⟨rfl, rfl⟩
  have hedge : ∀ p1 p2 : ℕ, p1 < m → p2 < m → p1 ≠ p2 → ∀ n1,
      (create_graph dist (List.replicate m [fp]) threshold).get? p1 = some n1 →
      p2 ∈ n1.neighbors := by
    intro p1 p2 hp1 hp2 hne n1 hn1
    rw [create_graph_replicate_get? dist fp m threshold p1 hp1, Option.some.injEq] at hn1
    rw [← hn1]
    have hmem := mem_neighbors_for_aux_intro dist fp p1 threshold
      (initial_nodes (List.replicate m [fp])) 0 p2 (Node.mk p2 [] fp p2 false)
      (initial_nodes_replicate_zero fp m p2 hp2) rfl (by omega) (by rw [hd]; exact ht)
    exact hmem
  refine ⟨hedge, ?_⟩
  intro p1 p2 hp1 hp2 hne
  have hn1 := create_graph_replicate_get? dist fp m threshold p1 hp1
  have hn2 := create_graph_replicate_get? dist fp m threshold p2 hp2
  refine populate_top_of dist _ p1 p2 _ _ (List.get?_mem hn1) rfl rfl
    (hedge p1 p2 hp1 hp2 hne _ hn1) hn2 ?_
  intro n1 hmem1 hcl1 nb2 o2 ho2
  obtain ⟨q1, hq1⟩ := List.mem_iff_get?.mp hmem1
  rw [(hdesc q1 n1 hq1).1, (hdesc nb2 o2 ho2).1]
  exact hd

/-- Witness for the amended C4 on two identical descriptors. -/
theorem identical_descriptors_clique_witness :
    (1 ∈ (Node.mk 0 [1] ([1] : List ℚ) 0 false).neighbors) ∧
    populate dist01 true (create_graph dist01 (List.replicate 2 [[1]]) 1) (0, 1) = ⊤ :=
  ⟨(identical_descriptors_clique dist01 [1] 2 1 (by decide) (by decide)).1 0 1
      (by omega) (by omega) (by omega) (Node.mk 0 [1] [1] 0 false) (by rfl),
    (identical_descriptors_clique dist01 [1] 2 1 (by decide) (by decide)).2 0 1
      (by omega) (by omega) (by omega)⟩

/-- Counterexample to C4 as stated: three identical descriptors, positive
threshold, weighted mode.  The exhibited draws (node 0 with tie-break 0, then
node 1 with tie-break 0) make the convergence heuristic break after two
iterations while the classified set still carries two distinct labels
`{1, 2}` — propagation does not converge to a single shared label. -/
theorem identical_descriptors_two_labels_remain :
    dist01 [1] [1] = 0 ∧ (0 : ℚ) < 1 ∧
    whispers dist01 (create_graph dist01 [[[1]], [[1]], [[1]]] 1) 10 true orcK =
      .ok (populate dist01 true (create_graph dist01 [[[1]], [[1]], [[1]]] 1),
        [⟨0, [1, 2], [1], 1, false⟩, ⟨1, [0, 2], [1], 1, false⟩, ⟨2, [0, 1], [1], 2, false⟩],
        2) ∧
    (∀ l : ℕ, ¬ ([⟨0, [1, 2], [1], 1, false⟩, ⟨1, [0, 2], [1], 1, false⟩,
        ⟨2, [0, 1], [1], 2, false⟩] : List Node).map Node.label = [l, l, l]) ∧
    (2 : ℕ) < 10 := by
  refine ⟨by decide, by decide, by rfl, ?_, by omega⟩
  intro l h
  simp only [List.map_cons, List.map_nil, List.cons.injEq, and_true] at h
  omega

/-- The outer pass preserves each node's flag and descriptor. -/
theorem create_graph_flag (dist : List ℚ → List ℚ → ℚ) (items : List (List (List ℚ)))
    (t : ℚ) (p : ℕ) (n : Node)
    (h : (create_graph dist items t).get? p = some n) :
    ∃ n1, (initial_nodes items).get? p = some n1 ∧
      n.unclassified = n1.unclassified ∧ n.descriptor = n1.descriptor := by
  rw [create_graph_get?] at h
  rcases Option.map_eq_some'.mp h with ⟨n1, hn1, hnode⟩
  refine ⟨n1, hn1, ?_⟩
  rw [← hnode]
  split
  · exact ⟨rfl, rfl⟩
  · exact ⟨rfl, rfl⟩

/-- Unclassified nodes keep the empty neighbor list they were constructed
with (lines 55-56 skip them). -/
theorem create_graph_uncl_nb (dist : List ℚ → List ℚ → ℚ) (items : List (List (List ℚ)))
    (t : ℚ) (n : Node) (hmem : n ∈ create_graph dist items t)
    (hu : n.unclassified = true) : n.neighbors = [] := by
  obtain ⟨p, hp⟩ := List.mem_iff_get?.mp hmem
  rw [create_graph_get?] at hp
  rcases Option.map_eq_some'.mp hp with ⟨n1, hn1, hnode⟩
  obtain ⟨-, -, hnb⟩ := initial_nodes_aux_get? items 0 p n1 hn1
  rw [← hnode] at hu ⊢
  by_cases h1 : n1.unclassified = true
  · rw [if_pos h1]
    exact hnb
  · rw [if_neg h1] at hu
    exact absurd hu h1

/-- No neighbor list of any node of the built graph mentions an unclassified
node's id (lines 60-61 skip unclassified `node2`). -/
theorem create_graph_no_uncl_nb (dist : List ℚ → List ℚ → ℚ) (items : List (List (List ℚ)))
    (t : ℚ) (u n : Node) (humem : u ∈ create_graph dist items t)
    (hu : u.unclassified = true) (hnmem : n ∈ create_graph dist items t) :
    u.id ∉ n.neighbors := by
  intro hbad
  obtain ⟨pu, hpu⟩ := List.mem_iff_get?.mp humem
  obtain ⟨pn, hpn⟩ := List.mem_iff_get?.mp hnmem
  have huid : u.id = pu := (create_graph_ids dist items t pu u hpu).1
  obtain ⟨u1, hu1, huf, -⟩ := create_graph_flag dist items t pu u hpu
  rw [create_graph_get?] at hpn
  rcases Option.map_eq_some'.mp hpn with ⟨n1, hn1, hnode⟩
  rw [← hnode] at hbad
  by_cases h1 : n1.unclassified = true
  · rw [if_pos h1] at hbad
    obtain ⟨-, -, hnb⟩ := initial_nodes_aux_get? items 0 pn n1 hn1
    rw [hnb] at hbad
    cases hbad
  · rw [if_neg h1] at hbad
    obtain ⟨i, node2, hg0, hcl2, hid2⟩ :=
      mem_neighbors_for_aux_exists dist n1.descriptor pn t (initial_nodes items) 0 u.id hbad
    obtain ⟨hid2i, -, -⟩ := initial_nodes_aux_get? items 0 i node2 hg0
    have hipu : i = pu := by omega
    rw [hipu] at hg0
    rw [hu1, Option.some.injEq] at hg0
    rw [← hg0] at hcl2
    rw [huf] at hu
    rw [hu] at hcl2
    cases hcl2

/-- C7: unclassified isolation.  (a) An unclassified node's neighbor list is
empty after `create_graph`; (b) no node's neighbor list contains an
unclassified node's id; (c) an unclassified node's adjacency row and column
are all zeros; (d) a successful `whispers` run leaves every unclassified
node — in particular its label — untouched, for any iteration count. -/
theorem unclassified_isolation :
    (∀ (dist : List ℚ → List ℚ → ℚ) (items : List (List (List ℚ))) (t : ℚ) (n : Node),
        n ∈ create_graph dist items t → n.unclassified = true → n.neighbors = []) ∧
    (∀ (dist : List ℚ → List ℚ → ℚ) (items : List (List (List ℚ))) (t : ℚ) (u n : Node),
        u ∈ create_graph dist items t → u.unclassified = true →
        n ∈ create_graph dist items t → u.id ∉ n.neighbors) ∧
    (∀ (dist : List ℚ → List ℚ → ℚ) (items : List (List (List ℚ))) (t : ℚ) (wm : Bool)
        (p : ℕ) (u : Node), (create_graph dist items t).get? p = some u →
        u.unclassified = true →
        ∀ j, populate dist wm (create_graph dist items t) (u.id, j) = 0 ∧
          populate dist wm (create_graph dist items t) (j, u.id) = 0) ∧
    (∀ (dist : List ℚ → List ℚ → ℚ) (graph : List Node) (mi : ℕ) (wm : Bool)
        (orc : ℕ → ℕ × ℕ) (adj : AdjMatrix) (g2 : List Node) (r : ℕ) (p : ℕ) (u : Node),
        whispers dist graph mi wm orc = .ok (adj, g2, r) →
        graph.get? p = some u → u.unclassified = true → g2.get? p = some u) := by
  refine ⟨create_graph_uncl_nb, create_graph_no_uncl_nb, ?_, ?_⟩
  · intro dist items t wm p u hp hu
    apply populate_avoid
    intro node hnode hcl
    obtain ⟨pn, hpn⟩ := List.mem_iff_get?.mp hnode
    have hnid : node.id = pn := (create_graph_ids dist items t pn node hpn).1
    have huid : u.id = p := (create_graph_ids dist items t p u hp).1
    constructor
    · intro hc
      have : pn = p := by omega
      rw [this, hp, Option.some.injEq] at hpn
      rw [← hpn] at hcl
      rw [hcl] at hu
      cases hu
    · intro nb hnb hc
      have hnotin := create_graph_no_uncl_nb dist items t u node (List.get?_mem hp) hu hnode
      rw [← hc] at hnotin
      exact hnotin hnb
  · intro dist graph mi wm orc adj g2 r p u hrun hp hu
    obtain ⟨-, hloop⟩ := whispers_ok_elim dist graph mi wm orc adj g2 r hrun
    refine whispers_loop_inv (populate dist wm graph) orc
      (fun g => g.get? p = some u) ?_ mi 0 graph _ _ g2 r hp hloop
    intro g c count past res hg hround
    rcases whispers_round_cases _ g c count past res hround with heq | hupd
    · rw [heq]; exact hg
    · obtain ⟨node, nbId, nbNode, hn, hcl, -, -, heq⟩ := hupd
      rw [heq]
      by_cases hpp : c.1 % g.length = p
      · rw [hpp] at hn
        rw [hg, Option.some.injEq] at hn
        rw [← hn] at hcl
        rw [hcl] at hu
        cases hu
      · rw [List.get?_set_ne _ _ hpp]
        exact hg

/-- One classified and one unclassified item
(`create_graph dist01 [[[1]], []] 1` evaluates to this). -/
def gMix : List Node := [⟨0, [], [1], 0, false⟩, ⟨1, [], [], 1, true⟩]

/-- Witness for C7 on `gMix`. -/
theorem unclassified_isolation_witness :
    (Node.mk 1 [] [] 1 true).neighbors = [] ∧
    ((Node.mk 1 [] [] 1 true).id ∉ (Node.mk 0 [] [1] 0 false).neighbors) ∧
    (populate dist01 true (create_graph dist01 [[[1]], []] 1) ((Node.mk 1 [] [] 1 true).id, 0) = 0 ∧
      populate dist01 true (create_graph dist01 [[[1]], []] 1) (0, (Node.mk 1 [] [] 1 true).id) = 0) ∧
    gMix.get? 1 = some (Node.mk 1 [] [] 1 true) :=
  ⟨unclassified_isolation.1 dist01 [[[1]], []] 1 (Node.mk 1 [] [] 1 true) (by decide) rfl,
    unclassified_isolation.2.1 dist01 [[[1]], []] 1 (Node.mk 1 [] [] 1 true)
      (Node.mk 0 [] [1] 0 false) (by decide) rfl (by decide),
    (unclassified_isolation.2.2.1 dist01 [[[1]], []] 1 true 1 (Node.mk 1 [] [] 1 true)
      (by rfl) rfl) 0,
    unclassified_isolation.2.2.2 dist01 gMix 2 true orc0
      (populate dist01 true gMix) gMix 2 1 (Node.mk 1 [] [] 1 true) (by rfl) (by rfl) rfl⟩

/-- Strip-equal node lists have the same length. -/
theorem strip_len {g g0 : List Node} (h : g.map strip = g0.map strip) :
    g.length = g0.length := by
  have h2 := congrArg List.length h
  simpa using h2

theorem strip_get? {g g0 : List Node} (h : g.map strip = g0.map strip) (p : ℕ) :
    (g.get? p).map strip = (g0.get? p).map strip := by
  rw [← List.get?_map, ← List.get?_map, h]

theorem strip_fields {a b : Node} (h : strip a = strip b) :
    a.id = b.id ∧ a.neighbors = b.neighbors ∧ a.descriptor = b.descriptor ∧
      a.unclassified = b.unclassified := by
  unfold strip at h
  injection h with h1 h2 h3 h4 h5
  exact ⟨h1, h2, h3, h5⟩

/-- Neighbor well-formedness only concerns label-free data, so it transfers
along strip-equality (propagation never changes anything but labels). -/
theorem NbOk_of_strip_eq {g g0 : List Node} (h : g.map strip = g0.map strip)
    (h0 : NbOk g0) : NbOk g := by
  intro n hn hcl nb hnb
  obtain ⟨q, hq⟩ := List.mem_iff_get?.mp hn
  have h1 : (g0.get? q).map strip = some (strip n) := by
    rw [← strip_get? h q, hq, Option.map_some']
  rcases Option.map_eq_some'.mp h1 with ⟨m, hm, hsm⟩
  obtain ⟨-, hnbs, -, hflag⟩ := strip_fields hsm
  have h2 := h0 m (List.get?_mem hm) (by rw [hflag]; exact hcl) nb
    (by rw [hnbs]; exact hnb)
  constructor
  · rw [strip_len h]; exact h2.1
  · cases hx : g.get? nb with
    | none =>
      have hxn := List.get?_eq_none.mp hx
      have := h2.1
      rw [← strip_len h] at this
      omega
    | some x =>
      have h3 : (g0.get? nb).map strip = some (strip x) := by
        rw [← strip_get? h nb, hx, Option.map_some']
      rcases Option.map_eq_some'.mp h3 with ⟨y, hy, hsy⟩
      obtain ⟨-, -, -, hflagx⟩ := strip_fields hsy
      have hgx : g.getD nb dNode = x := by
        show (g.get? nb).getD dNode = x
        rw [hx]; rfl
      have hgy : g0.getD nb dNode = y := by
        show (g0.get? nb).getD dNode = y
        rw [hy]; rfl
      rw [hgx, ← hflagx]
      rw [hgy] at h2
      exact h2.2

/-- The collection built by `create_graph` is well-formed: neighbor ids are
in range and point at classified nodes. -/
theorem create_graph_NbOk (dist : List ℚ → List ℚ → ℚ) (items : List (List (List ℚ)))
    (t : ℚ) : NbOk (create_graph dist items t) := by
  intro n hn hcl nb hnb
  obtain ⟨p, hp⟩ := List.mem_iff_get?.mp hn
  rw [create_graph_get?] at hp
  rcases Option.map_eq_some'.mp hp with ⟨n1, hn1, hnode⟩
  by_cases h1 : n1.unclassified = true
  · rw [if_pos h1] at hnode
    rw [hnode] at h1
    rw [hcl] at h1
    cases h1
  · rw [if_neg h1] at hnode
    have hnbs : n.neighbors =
        neighbors_for_aux dist n1.descriptor p t 0 (initial_nodes items) := by
      rw [← hnode]
    rw [hnbs] at hnb
    obtain ⟨i, node2, hg0, hcl2, hid2⟩ :=
      mem_neighbors_for_aux_exists dist n1.descriptor p t (initial_nodes items) 0 nb hnb
    obtain ⟨hid2i, -, -⟩ := initial_nodes_aux_get? items 0 i node2 hg0
    have hnbi : nb = i := by omega
    have hgi : (create_graph dist items t).get? i =
        some { node2 with
          neighbors := neighbors_for_aux dist node2.descriptor i t 0 (initial_nodes items) } := by
      rw [create_graph_get?, hg0, Option.map_some', if_neg (by simp [hcl2])]
    constructor
    · rw [hnbi]
      exact (List.get?_eq_some.mp hgi).1
    · have hval : (create_graph dist items t).getD nb dNode =
          { node2 with
            neighbors := neighbors_for_aux dist node2.descriptor i t 0 (initial_nodes items) } := by
        show ((create_graph dist items t).get? nb).getD dNode = _
        rw [hnbi, hgi]
        rfl
      rw [hval]
      exact hcl2

/-- C6: labels never leave the id space of the classified nodes.  On
`create_graph` output the collection is well-formed and every label is the
node's own id; and for any well-formed collection whose classified labels
already lie in its classified-id set, any number of `whispers` iterations
preserves that property — each update copies the current label of a
classified neighbor, which lies in the set by induction.  Quantifying over
every `max_iterations` covers every intermediate state of a longer run. -/
theorem labels_stay_in_id_space :
    (∀ (dist : List ℚ → List ℚ → ℚ) (items : List (List (List ℚ))) (t : ℚ),
        NbOk (create_graph dist items t) ∧
        LabelsOk (create_graph dist items t) (create_graph dist items t)) ∧
    (∀ (dist : List ℚ → List ℚ → ℚ) (graph : List Node) (mi : ℕ) (wm : Bool)
        (orc : ℕ → ℕ × ℕ) (adj : AdjMatrix) (g2 : List Node) (r : ℕ),
        NbOk graph → LabelsOk graph graph →
        whispers dist graph mi wm orc = .ok (adj, g2, r) → LabelsOk graph g2) := by
  constructor
  · intro dist items t
    refine ⟨create_graph_NbOk dist items t, ?_⟩
    intro n hn hcl
    obtain ⟨p, hp⟩ := List.mem_iff_get?.mp hn
    obtain ⟨hid, hlab⟩ := create_graph_ids dist items t p n hp
    exact ⟨n, hn, hcl, by omega⟩
  · intro dist graph mi wm orc adj g2 r hnbok hlab hrun
    obtain ⟨-, hloop⟩ := whispers_ok_elim dist graph mi wm orc adj g2 r hrun
    refine (whispers_loop_inv (populate dist wm graph) orc
      (fun g => g.map strip = graph.map strip ∧ LabelsOk graph g) ?_ mi 0 graph _ _ g2 r
      ⟨rfl, hlab⟩ hloop).2
    intro g c count past res hP hround
    obtain ⟨hstrip, hlabels⟩ := hP
    refine ⟨by rw [whispers_round_strip _ g c count past res hround, hstrip], ?_⟩
    rcases whispers_round_cases _ g c count past res hround with heq | hupd
    · rw [heq]; exact hlabels
    · obtain ⟨node, nbId, nbNode, hn, hcl, hmemnb, hnbnode, heq⟩ := hupd
      have hNg : NbOk g := NbOk_of_strip_eq hstrip hnbok
      have hnbflag : nbNode.unclassified = false := by
        have h2 := hNg node (List.get?_mem hn) hcl nbId hmemnb
        have hgd : g.getD nbId dNode = nbNode := by
          show (g.get? nbId).getD dNode = nbNode
          rw [hnbnode]; rfl
        rw [hgd] at h2
        exact h2.2
      obtain ⟨mm, hmm, hmmcl, hmmlab⟩ := hlabels nbNode (List.get?_mem hnbnode) hnbflag
      rw [heq]
      intro n hn2 hcl2
      obtain ⟨q, hq⟩ := List.mem_iff_get?.mp hn2
      by_cases hqp : q = c.1 % g.length
      · rw [hqp] at hq
        rw [List.get?_set_eq_of_lt _ (List.get?_eq_some.mp hn).1, Option.some.injEq] at hq
        refine ⟨mm, hmm, hmmcl, ?_⟩
        rw [← hq]
        exact hmmlab
      · rw [List.get?_set_ne _ _ (fun hc => hqp hc.symm)] at hq
        exact hlabels n (List.get?_mem hq) hcl2

/-- Witness for C6: the two-node clique run for three iterations ends with
both labels equal to `1`, the id of a classified node of the input. -/
theorem labels_stay_in_id_space_witness : LabelsOk gPair gConv :=
  labels_stay_in_id_space.2 dist01 gPair 3 true orcK (populate dist01 true gPair)
    gConv 2 (by decide) (by decide) (by rfl)

end Gezoo
